import Mathlib

/-!
Shallow embedding of the Go Redis-like server core: the RESP codec
(resp.go), the command handlers (handler.go), the request loop (main.go)
and the append-only-file persistence (aof.go), together with proofs about
their behavior.

Modeling conventions:
* Go strings are Lean `String`s; one `Char` stands for one byte.  The wire
  format is a `List Char`.
* `strconv` 64-bit overflow is idealized away (lengths are unbounded);
  this only affects inputs no real machine could hold.
* Go maps are modeled as association lists; map iteration order, which Go
  leaves unspecified, is the list order.
* Go panics (negative `make` length, indexing an empty slice during AOF
  replay of a malformed record) are modeled as `none` / as skipping the
  record; no claim below depends on those paths.
* The mutable globals `SETs`/`HSETs` become an explicit `Store` threaded
  through the handlers; the AOF file becomes an explicit log.
-/

/-- One decimal digit character, as emitted by `strconv.Itoa`. -/
def digitChar (d : Nat) : Char := Char.ofNat (48 + d)

/-- Big-endian decimal digits of `n` (empty for `0`), fuel-structured model
of the digit loop inside `strconv.Itoa`; correct whenever `n ≤ fuel`. -/
def toDecAux : Nat → Nat → List Char
  | 0, _ => []
  | fuel + 1, n =>
    if n = 0 then [] else toDecAux fuel (n / 10) ++ [digitChar (n % 10)]

/-- Model of `strconv.Itoa` on non-negative values. -/
def natToDec (n : Nat) : List Char := if n = 0 then ['0'] else toDecAux n n

/-- `strconv.Itoa` producing a `String`. -/
def itoa (n : Nat) : String := (natToDec n).asString

/-- Parse a non-empty all-digit string (the digit part of
`strconv.ParseInt`). -/
def parseDigits (s : List Char) : Option Nat :=
  if s.isEmpty then none
  else if s.all Char.isDigit then
    some (s.foldl (fun a c => 10 * a + (c.toNat - 48)) 0)
  else none

/-- Model of `strconv.ParseInt(_, 10, 64)`: optional sign, then decimal
digits (64-bit range checking idealized away). -/
def parseInt (s : List Char) : Option Int :=
  match s with
  | [] => none
  | c :: cs =>
    if c = '-' then (parseDigits cs).map (fun m => -(m : Int))
    else if c = '+' then (parseDigits cs).map (fun m => (m : Int))
    else (parseDigits (c :: cs)).map (fun m => (m : Int))

/-- RESP value: faithful model of the Go `Value` struct.  All fields are
always present (Go zero values), and `typ` selects the meaningful ones. -/
inductive Value where
  | mk (typ : String) (str : String) (num : Int) (bulk : String)
      (array : List Value)

/-- Field accessor `v.typ`. -/
def Value.typ : Value → String
  | .mk t _ _ _ _ => t

/-- Field accessor `v.str`. -/
def Value.str : Value → String
  | .mk _ s _ _ _ => s

/-- Field accessor `v.num`. -/
def Value.num : Value → Int
  | .mk _ _ n _ _ => n

/-- Field accessor `v.bulk`. -/
def Value.bulk : Value → String
  | .mk _ _ _ b _ => b

/-- Field accessor `v.array`. -/
def Value.array : Value → List Value
  | .mk _ _ _ _ a => a

/-- `Value{typ: "string", str: s}`. -/
def VStr (s : String) : Value := Value.mk "string" s 0 "" []

/-- `Value{typ: "error", str: s}`. -/
def VErr (s : String) : Value := Value.mk "error" s 0 "" []

/-- `Value{typ: "bulk", bulk: b}`. -/
def VBulk (b : String) : Value := Value.mk "bulk" "" 0 b []

/-- `Value{typ: "null"}`. -/
def VNull : Value := Value.mk "null" "" 0 "" []

/-- `Value{typ: "array", array: l}`. -/
def VArr (l : List Value) : Value := Value.mk "array" "" 0 "" l

/-- `Value{typ: "integer", num: n}` (constructible in the type system; the
source never builds one). -/
def VInt (n : Int) : Value := Value.mk "integer" "" n "" []

/-- The CRLF line terminator. -/
def CRLF : List Char := ['\r', '\n']

mutual

/-- `Value.Marshal` from resp.go: encode one value to wire bytes.  The Go
switch handles "array", "bulk", "string", "null", "error"; every other
`typ` (including "integer") falls to the default and encodes to no
bytes. -/
def Value.Marshal : Value → List Char
  | .mk typ str _ bulk array =>
    if typ = "array" then '*' :: natToDec array.length ++ CRLF ++ marshalList array
    else if typ = "bulk" then '$' :: natToDec bulk.length ++ CRLF ++ bulk.data ++ CRLF
    else if typ = "string" then '+' :: str.data ++ CRLF
    else if typ = "null" then ['$', '-', '1', '\r', '\n']
    else if typ = "error" then '-' :: str.data ++ CRLF
    else []

/-- Concatenated encodings of a list of values: the element loop of
`marshalArray`, and also the byte layout produced by successive
`Aof.Write` calls. -/
def marshalList : List Value → List Char
  | [] => []
  | v :: vs => v.Marshal ++ marshalList vs

end

/-- The loop body of `Resp.readLine`: `acc` is the line read so far; each
byte is appended and the loop stops once the second-to-last byte of the
line is `'\r'` (both terminator bytes are consumed and dropped).  Running
out of input is the `io.EOF` error from `ReadByte`. -/
def readLineAux : List Char → List Char → Option (List Char × List Char)
  | _, [] => none
  | acc, c :: rest =>
    if acc.getLast? = some '\r' then some (acc.dropLast, rest)
    else readLineAux (acc ++ [c]) rest

/-- `Resp.readLine`: one CRLF-terminated line, returned without its
terminator, plus the unconsumed remainder of the stream. -/
def readLine (s : List Char) : Option (List Char × List Char) :=
  readLineAux [] s

/-- `Resp.readInteger`: a line parsed with `strconv.ParseInt`. -/
def readInteger (s : List Char) : Option (Int × List Char) :=
  match readLine s with
  | none => none
  | some (line, rest) =>
    match parseInt line with
    | none => none
    | some i => some (i, rest)

/-- `Resp.readBulk` (the `$` byte already consumed).  A negative length
makes Go's `make([]byte, len)` panic, modeled as `none`.  The payload read
ignores short reads (missing bytes stay zero), and the result of reading
the trailing CRLF is discarded, both exactly as in the source. -/
def readBulk (s : List Char) : Option (Value × List Char) :=
  match readInteger s with
  | none => none
  | some (len, rest) =>
    if len < 0 then none
    else
      let l := len.toNat
      let payload := rest.take l ++ List.replicate (l - rest.length) '\x00'
      let rest1 := rest.drop l
      let rest2 := match readLine rest1 with
                   | none => []
                   | some (_, r) => r
      some (Value.mk "bulk" "" 0 payload.asString [], rest2)

/-- Decode `k` consecutive RESP values from the stream.  This combines
`Resp.Read` (one value: the `k = 1` instance) with the element loop of
`Resp.readArray`; `fuel` is a structural-recursion bound that is always
sufficient when at least `1 + length of the stream` (every decoded value
consumes at least its type byte).  An unrecognized type byte makes
`Resp.Read` return the zero `Value` with a nil error after consuming just
that byte, exactly as in the source. -/
def decodeCore : Nat → Nat → List Char → Option (List Value × List Char)
  | _, 0, s => some ([], s)
  | 0, _ + 1, _ => none
  | fuel + 1, k + 1, s =>
    match s with
    | [] => none
    | c :: rest =>
      let one : Option (Value × List Char) :=
        if c = '*' then
          match readInteger rest with
          | none => none
          | some (n, r) =>
            match decodeCore fuel n.toNat r with
            | none => none
            | some (vs, r2) => some (Value.mk "array" "" 0 "" vs, r2)
        else if c = '$' then readBulk rest
        else some (Value.mk "" "" 0 "" [], rest)
      match one with
      | none => none
      | some (v, s2) =>
        match decodeCore fuel k s2 with
        | none => none
        | some (vs, s3) => some (v :: vs, s3)

/-- `Resp.Read` with an explicit fuel bound: decode a single value. -/
def decodeF (fuel : Nat) (s : List Char) : Option (Value × List Char) :=
  match decodeCore fuel 1 s with
  | some ([v], rest) => some (v, rest)
  | _ => none

/-- `Resp.Read` on a fully available stream: decode one value, returning
it with the unconsumed remainder. -/
def decode (s : List Char) : Option (Value × List Char) :=
  decodeF (s.length + 1) s

/-- The two keyspace namespaces: the globals `SETs` and `HSETs` made
explicit. -/
structure Store where
  sets : List (String × String)
  hsets : List (String × List (String × String))
deriving DecidableEq

/-- Go map lookup `v, ok := m[k]`. -/
def mapGet {α : Type} (m : List (String × α)) (k : String) : Option α :=
  match m with
  | [] => none
  | (k1, v1) :: rest => if k1 = k then some v1 else mapGet rest k

/-- Go map assignment `m[k] = v`: overwrite the binding in place, or add
it if absent. -/
def mapSet {α : Type} (m : List (String × α)) (k : String) (v : α) :
    List (String × α) :=
  match m with
  | [] => [(k, v)]
  | (k1, v1) :: rest =>
    if k1 = k then (k, v) :: rest else (k1, v1) :: mapSet rest k v

/-- Go `delete(m, k)`. -/
def mapDel {α : Type} (m : List (String × α)) (k : String) :
    List (String × α) :=
  match m with
  | [] => []
  | (k1, v1) :: rest => if k1 = k then rest else (k1, v1) :: mapDel rest k

/-- In-place update of the value bound at `k`: Go's `m[h][f] = v` mutates
the inner map obtained from `m[h]`. -/
def mapAdjust {α : Type} (m : List (String × α)) (k : String) (f : α → α) :
    List (String × α) :=
  match m with
  | [] => []
  | (k1, v1) :: rest =>
    if k1 = k then (k1, f v1) :: rest else (k1, v1) :: mapAdjust rest k f

/-- A command handler: the Go `func([]Value) Value` with the global store
made an explicit argument and result. -/
abbrev Handler := List Value → Store → Store × Value

/-- The PING handler. -/
def ping : Handler := fun args st =>
  match args with
  | [] => (st, VStr "PONG")
  | a :: _ => (st, VStr a.bulk)

/-- The SET handler. -/
def set : Handler := fun args st =>
  match args with
  | [kV, vV] =>
    ({ st with sets := mapSet st.sets kV.bulk vV.bulk }, VStr "OK")
  | _ => (st, VErr "ERR wrong number of arguments for 'set' command")

/-- The GET handler. -/
def get : Handler := fun args st =>
  match args with
  | [kV] =>
    match mapGet st.sets kV.bulk with
    | none => (st, VNull)
    | some v => (st, VBulk v)
  | _ => (st, VErr "ERR wrong number of arguments for 'get' command")

/-- The `if _, ok := HSETs[hash]; !ok` block of the HSET handler: create an
empty inner map for the hash if it is absent. -/
def ensureHash (m : List (String × List (String × String))) (h : String) :
    List (String × List (String × String)) :=
  match mapGet m h with
  | none => mapSet m h []
  | some _ => m

/-- The HSET handler: ensure the hash exists, then set the field in it. -/
def hset : Handler := fun args st =>
  match args with
  | [hV, fV, vV] =>
    ({ st with
        hsets := mapAdjust (ensureHash st.hsets hV.bulk) hV.bulk
          (fun inner => mapSet inner fV.bulk vV.bulk) },
     VStr "OK")
  | _ => (st, VErr "ERR wrong number of arguments for 'hset' command")

/-- The HGET handler (`HSETs[hash][key]` on an absent hash indexes the
zero map and reports not-ok). -/
def hget : Handler := fun args st =>
  match args with
  | [hV, fV] =>
    match mapGet st.hsets hV.bulk with
    | none => (st, VNull)
    | some inner =>
      match mapGet inner fV.bulk with
      | none => (st, VNull)
      | some v => (st, VBulk v)
  | _ => (st, VErr "ERR wrong number of arguments for 'hget' command")

/-- The field-value flattening loop of the HGETALL handler: for each pair,
append the field name then the value, both as bulk strings. -/
def pairsToValues : List (String × String) → List Value
  | [] => []
  | (k, v) :: rest => VBulk k :: VBulk v :: pairsToValues rest

/-- The HGETALL handler. -/
def hgetall : Handler := fun args st =>
  match args with
  | [hV] =>
    match mapGet st.hsets hV.bulk with
    | none => (st, VNull)
    | some inner => (st, VArr (pairsToValues inner))
  | _ => (st, VErr "ERR wrong number of arguments for 'hgetall' command")

/-- One iteration of the DEL key loop (the body of
`for _, arg := range args` in the handler): check `SETs` first and, if the
key is there, delete it, count it and `continue` (skipping the `HSETs`
check); otherwise check and possibly delete from `HSETs`. -/
def delStep (acc : Store × Nat) (arg : Value) : Store × Nat :=
  let key := arg.bulk
  if (mapGet acc.1.sets key).isSome then
    ({ acc.1 with sets := mapDel acc.1.sets key }, acc.2 + 1)
  else if (mapGet acc.1.hsets key).isSome then
    ({ acc.1 with hsets := mapDel acc.1.hsets key }, acc.2 + 1)
  else acc

/-- The per-key loop of the DEL handler, started at `deletedCount := 0`. -/
def delLoop (st : Store) (args : List Value) : Store × Nat :=
  args.foldl delStep (st, 0)

/-- The DEL handler: at least one argument, delete each key, and answer
with `Value{typ: "string", str: strconv.Itoa(deletedCount)}`. -/
def del : Handler := fun args st =>
  if args.length < 1 then
    (st, VErr "ERR wrong number of arguments for 'del' command")
  else
    let res := delLoop st args
    (res.1, VStr (itoa res.2))

/-- Spec-side restatement (not taken from the source) of the per-key DEL
rule as the amended claim words it, for comparison with the handler: the
scalar namespace is checked first, and a key found there is deleted from
the scalar namespace only, the hash check being skipped; otherwise the
hash namespace is checked; a key in neither namespace contributes
nothing.  Each key contributes at most one to the count. -/
def delKeySpec (st : Store) (k : String) : Store × Nat :=
  if (mapGet st.sets k).isSome then
    ({ st with sets := mapDel st.sets k }, 1)
  else if (mapGet st.hsets k).isSome then
    ({ st with hsets := mapDel st.hsets k }, 1)
  else (st, 0)

/-- Spec-side restatement, continued: the final store and total count of a
DEL invocation, visiting the argument keys left to right and summing the
per-key contributions of `delKeySpec`. -/
def delSpec : Store → List Value → Store × Nat
  | st, [] => (st, 0)
  | st, a :: rest =>
    let p := delKeySpec st a.bulk
    let q := delSpec p.1 rest
    (q.1, p.2 + q.2)

/-- The command registry `Handlers` from handler.go. -/
def Handlers : List (String × Handler) :=
  [("PING", ping), ("SET", set), ("GET", get), ("HSET", hset),
   ("HGET", hget), ("HGETALL", hgetall), ("DEL", del)]

/-- `strings.ToUpper` restricted to ASCII (all command names in the
registry are ASCII). -/
def toUpperGo (s : String) : String := (s.data.map Char.toUpper).asString

/-- The state touched by one iteration of the main request loop: the
keyspace, the sequence of values appended to the AOF, and the bytes
written back to the client. -/
structure ServerState where
  store : Store
  log : List Value
  out : List Char

/-- One iteration of the request loop in main.go: reject non-arrays and
empty arrays silently; answer an unknown command with an empty simple
string; append the decoded value to the AOF exactly when the upper-cased
command is SET or HSET (before the handler runs); then run the handler
and write its response. -/
def step (st : ServerState) (value : Value) : ServerState :=
  if value.typ ≠ "array" then st
  else
    match value.array with
    | [] => st
    | first :: args =>
      let command := toUpperGo first.bulk
      match mapGet Handlers command with
      | none => { st with out := st.out ++ (VStr "").Marshal }
      | some handler =>
        let st1 := if command = "SET" ∨ command = "HSET" then
                     { st with log := st.log ++ [value] }
                   else st
        let res := handler args st1.store
        { st1 with store := res.1, out := st1.out ++ res.2.Marshal }

/-- The main request loop over a finite sequence of decoded requests. -/
def serve (st : ServerState) (reqs : List Value) : ServerState :=
  reqs.foldl step st

/-- Whether the request loop appends this request to the AOF: a
non-empty array whose upper-cased first element is SET or HSET. -/
def isLogged (v : Value) : Bool :=
  match v.array with
  | [] => false
  | first :: _ =>
    v.typ == "array" &&
      (toUpperGo first.bulk == "SET" || toUpperGo first.bulk == "HSET")

/-- The read loop of `Aof.Read`: decode values until the stream is
exhausted (io.EOF) or fails to decode, collecting each decoded value in
order (each is passed to the replay callback). -/
def aofReadAux : Nat → List Char → List Value
  | 0, _ => []
  | fuel + 1, s =>
    match decodeF (s.length + 1) s with
    | none => []
    | some (v, s1) => v :: aofReadAux fuel s1

/-- `Aof.Read` on the full file contents. -/
def aofRead (s : List Char) : List Value :=
  aofReadAux (s.length + 1) s

/-- The replay callback installed by main.go: upper-case the first bulk,
look up the handler (skipping unknown commands), run it on the remaining
arguments and discard the response.  A record that is not a non-empty
array would make the Go callback panic on `value.array[0]`; it is modeled
as skipped (no claim exercises that path). -/
def replayStep (st : Store) (value : Value) : Store :=
  match value.array with
  | [] => st
  | first :: args =>
    match mapGet Handlers (toUpperGo first.bulk) with
    | none => st
    | some handler => (handler args st).1

/-- Startup replay: read every record of the AOF file and feed it through
the replay callback, starting from empty namespaces. -/
def replay (file : List Char) : Store :=
  (aofRead file).foldl replayStep ⟨[], []⟩

/-- Canonical trees built from Array and BulkString nodes only: the
fragment of the `Value` model that the decoder can produce. -/
inductive BAO : Value → Prop
  | bulk (b : String) : BAO (Value.mk "bulk" "" 0 b [])
  | array (vs : List Value) (h : ∀ v ∈ vs, BAO v) :
      BAO (Value.mk "array" "" 0 "" vs)

/-- Node count of a list of value trees (used as a decoding fuel bound). -/
def sizeL : List Value → Nat
  | [] => 0
  | .mk _ _ _ _ arr :: rest => 1 + sizeL arr + sizeL rest

/-- Node count of one value tree. -/
def sizeV (v : Value) : Nat := sizeL [v]

/-- A store where key "k" exists both as a scalar and as a hash. -/
def stBoth : Store := ⟨[("k", "v")], [("k", [("f", "w")])]⟩

/-- A store where key "k" exists only as a hash. -/
def stHashOnly : Store := ⟨[], [("k", [("f", "w")])]⟩

/-- A store with one hash "h" holding fields x ↦ 1, y ↦ 2. -/
def stHashXY : Store := ⟨[], [("h", [("x", "1"), ("y", "2")])]⟩

/-- A server state with scalar key "k" present and an empty AOF. -/
def c3init : ServerState := ⟨⟨[("k", "v")], []⟩, [], []⟩

/-- The decoded request `DEL k`. -/
def delReq : Value := VArr [VBulk "DEL", VBulk "k"]

/-- A well-formed request naming a command outside the registry. -/
def fooReq : Value := VArr [VBulk "FOO"]

/-- A server state with empty namespaces, AOF and output. -/
def emptySrv : ServerState := ⟨⟨[], []⟩, [], []⟩

/-- AOF file contents produced by appending the wire encodings of
`SET a 1`, `HSET h f 2`, `SET a 3`, in that order. -/
def c4file : List Char :=
  marshalList [VArr [VBulk "SET", VBulk "a", VBulk "1"],
               VArr [VBulk "HSET", VBulk "h", VBulk "f", VBulk "2"],
               VArr [VBulk "SET", VBulk "a", VBulk "3"]]

/-! ## Association-list (Go map) lemmas -/

theorem mapGet_mapSet_self {α : Type} (m : List (String × α)) (k : String)
    (v : α) : mapGet (mapSet m k v) k = some v := by
  induction m with
  | nil => simp [mapSet, mapGet]
  | cons p rest ih =>
    obtain ⟨k1, v1⟩ := p
    by_cases h : k1 = k
    · simp [mapSet, h, mapGet]
    · simp [mapSet, h, mapGet, ih]

theorem mapSet_idem {α : Type} (m : List (String × α)) (k : String) (v : α) :
    mapSet (mapSet m k v) k v = mapSet m k v := by
  induction m with
  | nil => simp [mapSet]
  | cons p rest ih =>
    obtain ⟨k1, v1⟩ := p
    by_cases h : k1 = k
    · simp [mapSet, h]
    · simp [mapSet, h, ih]

theorem mapGet_mapAdjust_self {α : Type} (m : List (String × α)) (k : String)
    (f : α → α) : mapGet (mapAdjust m k f) k = (mapGet m k).map f := by
  induction m with
  | nil => simp [mapAdjust, mapGet]
  | cons p rest ih =>
    obtain ⟨k1, v1⟩ := p
    by_cases h : k1 = k
    · simp [mapAdjust, h, mapGet]
    · simp [mapAdjust, h, mapGet, ih]

theorem mapAdjust_comp {α : Type} (m : List (String × α)) (k : String)
    (f g : α → α) :
    mapAdjust (mapAdjust m k f) k g = mapAdjust m k (fun x => g (f x)) := by
  induction m with
  | nil => simp [mapAdjust]
  | cons p rest ih =>
    obtain ⟨k1, v1⟩ := p
    by_cases h : k1 = k
    · simp [mapAdjust, h]
    · simp [mapAdjust, h, ih]

theorem mapGet_ensureHash_isSome (m : List (String × List (String × String)))
    (h : String) : (mapGet (ensureHash m h) h).isSome := by
  unfold ensureHash
  cases hm : mapGet m h with
  | none => simp [mapGet_mapSet_self]
  | some x => simp [hm]

theorem ensureHash_of_isSome (m : List (String × List (String × String)))
    (h : String) (hs : (mapGet m h).isSome) : ensureHash m h = m := by
  unfold ensureHash
  cases hm : mapGet m h with
  | none => rw [hm] at hs; simp at hs
  | some x => rfl

theorem pairsToValues_length (l : List (String × String)) :
    (pairsToValues l).length = 2 * l.length := by
  induction l with
  | nil => simp [pairsToValues]
  | cons p rest ih =>
    obtain ⟨k1, v1⟩ := p
    simp [pairsToValues, ih]
    omega

/-! ## Claims about the command handlers -/

/-- C5: invoking SET with exactly one argument returns an Error whose text
contains the substring "wrong number of arguments for 'set' command", and
GET with zero arguments returns an Error containing the analogous 'get'
substring. -/
theorem arity_error_messages (st : Store) (a : Value) :
    (set [a] st).2 = VErr "ERR wrong number of arguments for 'set' command" ∧
    (∃ pre post, ((set [a] st).2).str =
      pre ++ "wrong number of arguments for 'set' command" ++ post) ∧
    (get [] st).2 = VErr "ERR wrong number of arguments for 'get' command" ∧
    (∃ pre post, ((get [] st).2).str =
      pre ++ "wrong number of arguments for 'get' command" ++ post) :=
  ⟨rfl, ⟨"ERR ", "", rfl⟩, rfl, ⟨"ERR ", "", rfl⟩⟩

/-- C7: HGETALL with one argument returns Null when the hash is absent;
when present with n fields it returns an Array of 2n bulk strings listing
some permutation of the field-value pairs, each field immediately followed
by its value. -/
theorem hgetall_semantics (st : Store) (a : Value) :
    (mapGet st.hsets a.bulk = none → (hgetall [a] st).2 = VNull) ∧
    (∀ inner, mapGet st.hsets a.bulk = some inner →
      ∃ ps : List (String × String), ps.Perm inner ∧
        (hgetall [a] st).2 = VArr (pairsToValues ps) ∧
        ((hgetall [a] st).2).array.length = 2 * inner.length) := by
  constructor
  · intro h
    simp [hgetall, h]
  · intro inner h
    refine ⟨inner, List.Perm.refl _, ?_, ?_⟩
    · simp [hgetall, h]
    · simp [hgetall, h, VArr, Value.array, pairsToValues_length]

/-- C7 witness: both branches of `hgetall_semantics` at a concrete store
with hash h = {x: 1, y: 2}. -/
theorem hgetall_semantics_witness :
    (hgetall [VBulk "nope"] stHashXY).2 = VNull ∧
    ∃ ps : List (String × String), ps.Perm [("x", "1"), ("y", "2")] ∧
      (hgetall [VBulk "h"] stHashXY).2 = VArr (pairsToValues ps) ∧
      ((hgetall [VBulk "h"] stHashXY).2).array.length =
        2 * ([("x", "1"), ("y", "2")] : List (String × String)).length :=
  ⟨(hgetall_semantics stHashXY (VBulk "nope")).1 rfl,
   (hgetall_semantics stHashXY (VBulk "h")).2 [("x", "1"), ("y", "2")] rfl⟩

/-- C8: repeated SET of the same key/value leaves the store identical to a
single SET, and likewise for repeated HSET of the same hash/field/value. -/
theorem set_hset_idempotent (st : Store) (a b c : Value) :
    (set [a, b] ((set [a, b] st).1)).1 = (set [a, b] st).1 ∧
    (hset [a, b, c] ((hset [a, b, c] st).1)).1 = (hset [a, b, c] st).1 := by
  constructor
  · show Store.mk (mapSet (mapSet st.sets a.bulk b.bulk) a.bulk b.bulk) st.hsets =
      Store.mk (mapSet st.sets a.bulk b.bulk) st.hsets
    rw [mapSet_idem]
  · have key : ∀ (m : List (String × List (String × String))) (h f w : String),
        mapAdjust (ensureHash (mapAdjust (ensureHash m h) h
            (fun inner => mapSet inner f w)) h) h
          (fun inner => mapSet inner f w) =
        mapAdjust (ensureHash m h) h (fun inner => mapSet inner f w) := by
      intro m h f w
      have hE := mapGet_ensureHash_isSome m h
      have h1 : ensureHash (mapAdjust (ensureHash m h) h
          (fun inner => mapSet inner f w)) h =
          mapAdjust (ensureHash m h) h (fun inner => mapSet inner f w) := by
        apply ensureHash_of_isSome
        rw [mapGet_mapAdjust_self]
        cases hm : mapGet (ensureHash m h) h with
        | none => rw [hm] at hE; simp at hE
        | some x => simp
      rw [h1, mapAdjust_comp]
      congr 1
      funext x
      exact mapSet_idem x f w
    show Store.mk st.sets
        (mapAdjust (ensureHash (mapAdjust (ensureHash st.hsets a.bulk) a.bulk
          (fun inner => mapSet inner b.bulk c.bulk)) a.bulk) a.bulk
          (fun inner => mapSet inner b.bulk c.bulk)) =
      Store.mk st.sets (mapAdjust (ensureHash st.hsets a.bulk) a.bulk
        (fun inner => mapSet inner b.bulk c.bulk))
    rw [key]

/-- C9: whenever a handler rejects a call for wrong argument count, it
returns an Error value and leaves both namespaces exactly as they were. -/
theorem arity_error_keeps_store (st : Store) (args : List Value) :
    (args.length ≠ 2 → (set args st).1 = st ∧ ((set args st).2).typ = "error") ∧
    (args.length ≠ 1 → (get args st).1 = st ∧ ((get args st).2).typ = "error") ∧
    (args.length ≠ 3 → (hset args st).1 = st ∧ ((hset args st).2).typ = "error") ∧
    (args.length ≠ 2 → (hget args st).1 = st ∧ ((hget args st).2).typ = "error") ∧
    (args.length ≠ 1 → (hgetall args st).1 = st ∧ ((hgetall args st).2).typ = "error") ∧
    (args.length < 1 → (del args st).1 = st ∧ ((del args st).2).typ = "error") := by
  rcases args with _ | ⟨a, _ | ⟨b, _ | ⟨c, _ | ⟨d, rest⟩⟩⟩⟩ <;>
    refine ⟨fun h => ?_, fun h => ?_, fun h => ?_, fun h => ?_, fun h => ?_,
            fun h => ?_⟩ <;>
    first
      | exact absurd rfl h
      | exact absurd h (by simp only [List.length_cons, List.length_nil]; omega)
      | exact ⟨rfl, rfl⟩

/-- C9 witness: every handler called with zero arguments (the wrong count
for all six) errors and preserves a concrete populated store. -/
theorem arity_error_keeps_store_witness :
    ((set [] stBoth).1 = stBoth ∧ ((set [] stBoth).2).typ = "error") ∧
    ((get [] stBoth).1 = stBoth ∧ ((get [] stBoth).2).typ = "error") ∧
    ((hset [] stBoth).1 = stBoth ∧ ((hset [] stBoth).2).typ = "error") ∧
    ((hget [] stBoth).1 = stBoth ∧ ((hget [] stBoth).2).typ = "error") ∧
    ((hgetall [] stBoth).1 = stBoth ∧ ((hgetall [] stBoth).2).typ = "error") ∧
    ((del [] stBoth).1 = stBoth ∧ ((del [] stBoth).2).typ = "error") := by
  have h := arity_error_keeps_store stBoth []
  exact ⟨h.1 (by decide), h.2.1 (by decide), h.2.2.1 (by decide),
         h.2.2.2.1 (by decide), h.2.2.2.2.1 (by decide),
         h.2.2.2.2.2 (by decide)⟩

/-- C4: replaying an AOF containing `SET a 1`, `HSET h f 2`, `SET a 3`, in
that order, into a fresh store yields GET a = "3" and HGET h f = "2". -/
theorem replay_fidelity :
    (get [VBulk "a"] (replay c4file)).2 = VBulk "3" ∧
    (hget [VBulk "h", VBulk "f"] (replay c4file)).2 = VBulk "2" :=
  ⟨rfl, rfl⟩

/-- C1 counterexample: with key "k" in both namespaces, `DEL k` answers
with the SimpleString-typed value "1" — not Integer 2 as claimed — and the
hash entry for "k" survives (the scalar hit `continue`s past the hash
check). -/
theorem del_double_count_cex :
    (del [VBulk "k"] stBoth).2 = VStr "1" ∧
    (del [VBulk "k"] stBoth).2 ≠ VInt 2 ∧
    mapGet ((del [VBulk "k"] stBoth).1).hsets "k" = some [("f", "w")] := by
  refine ⟨rfl, ?_, rfl⟩
  intro h
  rw [show (del [VBulk "k"] stBoth).2 = VStr "1" from rfl] at h
  simp [VStr, VInt] at h

theorem delStep_delKeySpec (st : Store) (c : Nat) (a : Value) :
    delStep (st, c) a = ((delKeySpec st a.bulk).1, c + (delKeySpec st a.bulk).2) := by
  unfold delStep delKeySpec
  by_cases h1 : (mapGet st.sets a.bulk).isSome
  · simp [h1]
  · by_cases h2 : (mapGet st.hsets a.bulk).isSome
    · simp [h1, h2]
    · simp [h1, h2]

theorem delLoop_aux : ∀ (args : List Value) (st : Store) (c : Nat),
    args.foldl delStep (st, c) = ((delSpec st args).1, c + (delSpec st args).2) := by
  intro args
  induction args with
  | nil => intro st c; simp [delSpec]
  | cons a rest ih =>
    intro st c
    rw [List.foldl_cons, delStep_delKeySpec, ih]
    simp [delSpec]
    omega

theorem delLoop_eq_delSpec (st : Store) (args : List Value) :
    delLoop st args = delSpec st args := by
  unfold delLoop
  rw [delLoop_aux args st 0]
  simp

theorem delSpec_le_length : ∀ (args : List Value) (st : Store),
    (delSpec st args).2 ≤ args.length := by
  intro args
  induction args with
  | nil => intro st; simp [delSpec]
  | cons a rest ih =>
    intro st
    have hk : (delKeySpec st a.bulk).2 ≤ 1 := by
      unfold delKeySpec
      by_cases h1 : (mapGet st.sets a.bulk).isSome
      · simp [h1]
      · by_cases h2 : (mapGet st.hsets a.bulk).isSome
        · simp [h1, h2]
        · simp [h1, h2]
    have hr := ih (delKeySpec st a.bulk).1
    simp [delSpec]
    omega

/-- C1 (amended): for every DEL invocation with at least one key argument,
the response is a SimpleString-kind Value (typ "string") whose text is the
decimal rendering of the deletion count, the store and count being exactly
those of the spec-side per-key description `delSpec` — scalar namespace
checked first, a scalar hit deleting only the scalar entry and skipping
the hash check — so each key contributes at most one (count ≤ number of
arguments); in particular DEL k answers "1" when k is a scalar (its hash
entry, if any, surviving), "1" when k exists only as a hash, and "0" when
k exists in neither namespace. -/
theorem del_semantics (st : Store) (args : List Value) (k : String) :
    (args ≠ [] →
      del args st = ((delSpec st args).1, VStr (itoa (delSpec st args).2)) ∧
      (delSpec st args).2 ≤ args.length) ∧
    ((mapGet st.sets k).isSome →
      del [VBulk k] st = ({ st with sets := mapDel st.sets k }, VStr "1")) ∧
    (mapGet st.sets k = none → (mapGet st.hsets k).isSome →
      del [VBulk k] st = ({ st with hsets := mapDel st.hsets k }, VStr "1")) ∧
    (mapGet st.sets k = none → mapGet st.hsets k = none →
      del [VBulk k] st = (st, VStr "0")) := by
  refine ⟨fun h => ⟨?_, delSpec_le_length args st⟩,
          fun h1 => ?_, fun h1 h2 => ?_, fun h1 h2 => ?_⟩
  · unfold del
    rw [if_neg (by
      cases args with
      | nil => exact absurd rfl h
      | cons a rest => simp only [List.length_cons]; omega)]
    show ((delLoop st args).1, VStr (itoa (delLoop st args).2)) = _
    rw [delLoop_eq_delSpec]
  · simp [del, delLoop, delStep, VBulk, Value.bulk, h1, itoa, natToDec, toDecAux]
    rfl
  · simp [del, delLoop, delStep, VBulk, Value.bulk, h1, h2, itoa, natToDec, toDecAux]
    rfl
  · simp [del, delLoop, delStep, VBulk, Value.bulk, h1, h2, itoa, natToDec, toDecAux]
    rfl

/-- C1 witness: the general clause of `del_semantics` at a concrete
two-key invocation, and its three single-key branches at concrete
stores. -/
theorem del_semantics_witness :
    (del [VBulk "k", VBulk "nope"] stBoth =
        ((delSpec stBoth [VBulk "k", VBulk "nope"]).1,
          VStr (itoa (delSpec stBoth [VBulk "k", VBulk "nope"]).2)) ∧
      (delSpec stBoth [VBulk "k", VBulk "nope"]).2 ≤ 2) ∧
    del [VBulk "k"] stBoth =
      ({ stBoth with sets := mapDel stBoth.sets "k" }, VStr "1") ∧
    del [VBulk "k"] stHashOnly =
      ({ stHashOnly with hsets := mapDel stHashOnly.hsets "k" }, VStr "1") ∧
    del [VBulk "nope"] stBoth = (stBoth, VStr "0") :=
  ⟨(del_semantics stBoth [VBulk "k", VBulk "nope"] "k").1 (by simp),
   (del_semantics stBoth [] "k").2.1 rfl,
   (del_semantics stHashOnly [] "k").2.2.1 rfl rfl,
   (del_semantics stBoth [] "nope").2.2.2 rfl rfl⟩

/-! ## Claims about the request loop and the durability log -/

/-- C3 counterexample: a `DEL k` request whose handler removes the scalar
key "k" is not appended to the AOF — the log stays empty rather than
gaining the decoded value. -/
theorem aof_skips_del_cex :
    (step c3init delReq).log = [] ∧
    (step c3init delReq).store.sets = [] ∧
    c3init.store.sets = [("k", "v")] ∧
    (step c3init delReq).log ≠ c3init.log ++ [delReq] := by
  refine ⟨rfl, rfl, rfl, ?_⟩
  rw [show (step c3init delReq).log = ([] : List Value) from rfl]
  simp [c3init]

theorem step_log (st : ServerState) (v : Value) :
    (step st v).log = st.log ++ (if isLogged v then [v] else []) := by
  obtain ⟨t, s, n, b, arr⟩ := v
  by_cases ht : t = "array"
  · subst ht
    cases arr with
    | nil =>
      simp [step, isLogged, Value.typ, Value.array]
    | cons first args =>
      cases hm : mapGet Handlers (toUpperGo first.bulk) with
      | none =>
        have hlog : isLogged (Value.mk "array" s n b (first :: args)) = false := by
          simp only [isLogged, Value.typ, Value.array]
          by_cases hc1 : toUpperGo first.bulk = "SET"
          · rw [hc1] at hm
            rw [show mapGet Handlers "SET" = some set from rfl] at hm
            exact absurd hm (by simp)
          · by_cases hc2 : toUpperGo first.bulk = "HSET"
            · rw [hc2] at hm
              rw [show mapGet Handlers "HSET" = some hset from rfl] at hm
              exact absurd hm (by simp)
            · simp [hc1, hc2]
        rw [hlog]
        unfold step
        simp [Value.typ, Value.array, hm]
      | some handler =>
        by_cases hc : toUpperGo first.bulk = "SET" ∨ toUpperGo first.bulk = "HSET"
        · have hlog : isLogged (Value.mk "array" s n b (first :: args)) = true := by
            simp only [isLogged, Value.typ, Value.array]
            rcases hc with hc | hc <;> simp [hc]
          rw [hlog]
          unfold step
          simp [Value.typ, Value.array, hm, hc]
        · have hlog : isLogged (Value.mk "array" s n b (first :: args)) = false := by
            simp only [isLogged, Value.typ, Value.array]
            push_neg at hc
            simp [hc.1, hc.2]
          rw [hlog]
          unfold step
          simp [Value.typ, Value.array, hm, hc]
  · have hlog : isLogged (Value.mk t s n b arr) = false := by
      cases arr with
      | nil => simp [isLogged, Value.typ, Value.array]
      | cons first args => simp [isLogged, Value.typ, Value.array, ht]
    rw [hlog]
    unfold step
    simp [Value.typ, Value.array, ht]

/-- C3 (amended): the requests appended to the AOF, in order, are exactly
the accepted commands whose upper-cased name is SET or HSET; DEL — though
its handler mutates the store — is never appended (see
`aof_skips_del_cex`). -/
theorem aof_append_order (st : ServerState) (reqs : List Value) :
    (serve st reqs).log = st.log ++ reqs.filter isLogged := by
  induction reqs generalizing st with
  | nil => simp [serve]
  | cons r rs ih =>
    show (serve (step st r) rs).log = _
    rw [ih, step_log, List.filter_cons]
    by_cases hr : isLogged r <;> simp [hr]

/-- C6: a well-formed request (array of bulk strings, at least one
element) whose upper-cased command is not in the registry is answered with
an empty SimpleString, whose wire encoding is exactly `+\r\n` — not an
Error value. -/
theorem unknown_command_response (st : ServerState) (v first : Value)
    (rest : List Value) (h1 : v.typ = "array") (h2 : v.array = first :: rest)
    (h3 : ∀ e ∈ v.array, e.typ = "bulk")
    (h4 : mapGet Handlers (toUpperGo first.bulk) = none) :
    (step st v).out = st.out ++ ['+', '\r', '\n'] := by
  unfold step
  rw [h1, h2]
  simp [h4, show (VStr "").Marshal = ['+', '\r', '\n'] from rfl]

/-- C6 witness: the request `FOO` against an empty server state. -/
theorem unknown_command_response_witness :
    (step emptySrv fooReq).out = emptySrv.out ++ ['+', '\r', '\n'] :=
  unknown_command_response emptySrv fooReq (VBulk "FOO") [] rfl rfl
    (by
      intro e he
      rw [show fooReq.array = [VBulk "FOO"] from rfl] at he
      simp only [List.mem_singleton] at he
      rw [he]
      rfl)
    rfl


/-! ## Decimal codec lemmas -/

theorem digitChar_toNat {d : Nat} (hd : d < 10) :
    (digitChar d).toNat = 48 + d := by
  interval_cases d <;> decide

theorem digitChar_isDigit {d : Nat} (hd : d < 10) :
    (digitChar d).isDigit = true := by
  interval_cases d <;> decide

theorem digitChar_ne_cr {d : Nat} (hd : d < 10) : digitChar d ≠ '\r' := by
  interval_cases d <;> decide

theorem toDecAux_mem_digit :
    ∀ fuel n c, c ∈ toDecAux fuel n → ∃ d, d < 10 ∧ c = digitChar d := by
  intro fuel
  induction fuel with
  | zero => intro n c hc; simp [toDecAux] at hc
  | succ f ih =>
    intro n c hc
    unfold toDecAux at hc
    by_cases hn : n = 0
    · simp [hn] at hc
    · rw [if_neg hn] at hc
      rcases List.mem_append.mp hc with h | h
      · exact ih _ _ h
      · simp only [List.mem_singleton] at h
        exact ⟨n % 10, Nat.mod_lt _ (by omega), h⟩

theorem natToDec_mem_digit {n : Nat} {c : Char} (hc : c ∈ natToDec n) :
    ∃ d, d < 10 ∧ c = digitChar d := by
  unfold natToDec at hc
  by_cases hn : n = 0
  · simp [hn] at hc
    exact ⟨0, by omega, by rw [hc]; decide⟩
  · rw [if_neg hn] at hc
    exact toDecAux_mem_digit n n c hc

theorem natToDec_not_cr (n : Nat) : '\r' ∉ natToDec n := by
  intro h
  obtain ⟨d, hd, hc⟩ := natToDec_mem_digit h
  exact digitChar_ne_cr hd hc.symm

theorem natToDec_ne_nil (n : Nat) : natToDec n ≠ [] := by
  unfold natToDec
  by_cases hn : n = 0
  · simp [hn]
  · rw [if_neg hn]
    cases n with
    | zero => exact absurd rfl hn
    | succ m =>
      unfold toDecAux
      rw [if_neg hn]
      simp

theorem natToDec_all_digits (n : Nat) :
    (natToDec n).all Char.isDigit = true := by
  rw [List.all_eq_true]
  intro c hc
  obtain ⟨d, hd, rfl⟩ := natToDec_mem_digit hc
  exact digitChar_isDigit hd

theorem toDecAux_foldl : ∀ fuel n a, n ≤ fuel →
    (toDecAux fuel n).foldl (fun x c => 10 * x + (c.toNat - 48)) a =
      a * 10 ^ (toDecAux fuel n).length + n := by
  intro fuel
  induction fuel with
  | zero =>
    intro n a hn
    interval_cases n
    simp [toDecAux]
  | succ f ih =>
    intro n a hn
    by_cases h0 : n = 0
    · subst h0; simp [toDecAux]
    · have hdiv : n / 10 ≤ f := by
        have : n / 10 < n := Nat.div_lt_self (by omega) (by omega)
        omega
      unfold toDecAux
      rw [if_neg h0, List.foldl_append, ih (n / 10) a hdiv]
      simp only [List.foldl_cons, List.foldl_nil, List.length_append,
        List.length_cons, List.length_nil]
      rw [digitChar_toNat (Nat.mod_lt _ (by omega))]
      rw [show (toDecAux f (n / 10)).length + (0 + 1) =
        (toDecAux f (n / 10)).length + 1 from by omega]
      rw [pow_succ, ← mul_assoc]
      generalize a * 10 ^ (toDecAux f (n / 10)).length = b
      omega

theorem parseDigits_natToDec (n : Nat) : parseDigits (natToDec n) = some n := by
  by_cases h0 : n = 0
  · subst h0; decide
  · unfold parseDigits
    rw [if_neg (by simp [List.isEmpty_iff]; exact natToDec_ne_nil n)]
    rw [if_pos (natToDec_all_digits n)]
    unfold natToDec
    rw [if_neg h0]
    rw [toDecAux_foldl n n 0 (Nat.le_refl n)]
    simp

theorem isDigit_ne_sign {c : Char} (h : c.isDigit = true) :
    c ≠ '-' ∧ c ≠ '+' := by
  constructor <;> (rintro rfl; exact absurd h (by decide))

theorem parseInt_natToDec (n : Nat) :
    parseInt (natToDec n) = some (n : Int) := by
  have hall := natToDec_all_digits n
  cases hl : natToDec n with
  | nil => exact absurd hl (natToDec_ne_nil n)
  | cons c cs =>
    have hcd : c.isDigit = true := by
      rw [hl] at hall
      simp only [List.all_cons, Bool.and_eq_true] at hall
      exact hall.1
    obtain ⟨hm, hp⟩ := isDigit_ne_sign hcd
    simp only [parseInt]
    rw [if_neg hm, if_neg hp, ← hl, parseDigits_natToDec]
    rfl

/-! ## Wire codec round-trip lemmas -/

theorem readLineAux_spec : ∀ (l acc : List Char) (c : Char) (rest : List Char),
    '\r' ∉ l → acc.getLast? ≠ some '\r' →
    readLineAux acc (l ++ '\r' :: c :: rest) = some (acc ++ l, rest) := by
  intro l
  induction l with
  | nil =>
    intro acc c rest _ hacc
    show readLineAux acc ('\r' :: c :: rest) = some (acc ++ [], rest)
    unfold readLineAux
    rw [if_neg hacc]
    unfold readLineAux
    rw [if_pos (by rw [List.getLast?_concat])]
    rw [List.dropLast_concat]
    simp
  | cons x xs ih =>
    intro acc c rest hl hacc
    have hx : x ≠ '\r' := by
      intro h
      exact hl (by rw [← h]; exact List.mem_cons_self x xs)
    show readLineAux acc (x :: (xs ++ '\r' :: c :: rest)) = _
    unfold readLineAux
    rw [if_neg hacc]
    rw [ih (acc ++ [x]) c rest
      (fun h => hl (List.mem_cons_of_mem x h))
      (by rw [List.getLast?_concat]; intro h; exact hx (by injection h))]
    simp

theorem readLine_spec (l : List Char) (c : Char) (rest : List Char)
    (hl : '\r' ∉ l) : readLine (l ++ '\r' :: c :: rest) = some (l, rest) := by
  unfold readLine
  rw [readLineAux_spec l [] c rest hl (by simp)]
  simp

theorem readLine_crlf (rest : List Char) :
    readLine ('\r' :: '\n' :: rest) = some ([], rest) := by
  have h := readLine_spec [] '\n' rest (by simp)
  simpa using h

theorem readInteger_natToDec (n : Nat) (rest : List Char) :
    readInteger (natToDec n ++ '\r' :: '\n' :: rest) = some ((n : Int), rest) := by
  unfold readInteger
  rw [readLine_spec _ _ _ (natToDec_not_cr n)]
  simp only [parseInt_natToDec]

theorem take_len_append {α : Type} (l t : List α) :
    (l ++ t).take l.length = l := by
  induction l with
  | nil => simp
  | cons x xs ih => simp [ih]

theorem drop_len_append {α : Type} (l t : List α) :
    (l ++ t).drop l.length = t := by
  induction l with
  | nil => simp
  | cons x xs ih => simp [ih]

theorem string_length_data (s : String) : s.length = s.data.length := rfl

theorem asString_data (s : String) : s.data.asString = s := rfl

theorem readBulk_marshal (b : String) (rest : List Char) :
    readBulk (natToDec b.length ++ '\r' :: '\n' ::
        (b.data ++ '\r' :: '\n' :: rest)) =
      some (Value.mk "bulk" "" 0 b [], rest) := by
  unfold readBulk
  rw [readInteger_natToDec]
  simp only [Int.toNat_natCast, string_length_data]
  rw [if_neg (by omega)]
  simp only [Int.toNat_natCast, take_len_append, drop_len_append,
    readLine_crlf]
  rw [show b.data.length - (b.data ++ '\r' :: '\n' :: rest).length = 0 from
    by simp]
  simp [asString_data]

theorem sizeL_cons (v : Value) (vs : List Value) :
    sizeL (v :: vs) = sizeV v + sizeL vs := by
  obtain ⟨t, s, n, b, arr⟩ := v
  simp [sizeL, sizeV]

theorem sizeV_pos (v : Value) : 1 ≤ sizeV v := by
  obtain ⟨t, s, n, b, arr⟩ := v
  simp [sizeV, sizeL]

theorem decodeCore_bulk_step (f k : Nat) (s : List Char) :
    decodeCore (f + 1) (k + 1) ('$' :: s) =
      match readBulk s with
      | none => none
      | some (v, s2) =>
        match decodeCore f k s2 with
        | none => none
        | some (vs, s3) => some (v :: vs, s3) := by
  cases hb : readBulk s with
  | none => simp [decodeCore, hb]
  | some p =>
    obtain ⟨v, s2⟩ := p
    cases hk : decodeCore f k s2 with
    | none => simp [decodeCore, hb, hk]
    | some q =>
      obtain ⟨vs, s3⟩ := q
      simp [decodeCore, hb, hk]

theorem decodeCore_array_step (f k : Nat) (s : List Char) :
    decodeCore (f + 1) (k + 1) ('*' :: s) =
      match readInteger s with
      | none => none
      | some (n, r) =>
        match decodeCore f n.toNat r with
        | none => none
        | some (ws, r2) =>
          match decodeCore f k r2 with
          | none => none
          | some (vs, s3) => some (Value.mk "array" "" 0 "" ws :: vs, s3) := by
  cases hri : readInteger s with
  | none => simp [decodeCore, hri]
  | some p =>
    obtain ⟨n, r⟩ := p
    cases hd : decodeCore f n.toNat r with
    | none => simp [decodeCore, hri, hd]
    | some q =>
      obtain ⟨ws, r2⟩ := q
      cases hk : decodeCore f k r2 with
      | none => simp [decodeCore, hri, hd, hk]
      | some z =>
        obtain ⟨vs, s3⟩ := z
        simp [decodeCore, hri, hd, hk]

theorem decodeCore_marshalList :
    ∀ fuel vs rest, (∀ v ∈ vs, BAO v) → sizeL vs ≤ fuel →
      decodeCore fuel vs.length (marshalList vs ++ rest) = some (vs, rest) := by
  intro fuel
  induction fuel using Nat.strong_induction_on with
  | _ fuel ih =>
    intro vs rest hbao hsz
    cases vs with
    | nil => simp [decodeCore, marshalList]
    | cons v vs1 =>
      have hv : BAO v := hbao v (List.mem_cons_self v vs1)
      have hpos := sizeV_pos v
      rw [sizeL_cons] at hsz
      obtain ⟨f, rfl⟩ : ∃ f, fuel = f + 1 := ⟨fuel - 1, by omega⟩
      have hbao1 : ∀ w ∈ vs1, BAO w := fun w hw => hbao w (List.mem_cons_of_mem v hw)
      have hlt : f < f + 1 := Nat.lt_succ_self f
      rw [show marshalList (v :: vs1) ++ rest = v.Marshal ++ (marshalList vs1 ++ rest)
        from by simp [marshalList]]
      cases hv with
      | bulk b =>
        have hsz1 : sizeV (Value.mk "bulk" "" 0 b []) = 1 := by simp [sizeV, sizeL]
        rw [hsz1] at hsz
        rw [show (Value.mk "bulk" "" 0 b []).Marshal ++ (marshalList vs1 ++ rest) =
            '$' :: (natToDec b.length ++ '\r' :: '\n' ::
              (b.data ++ '\r' :: '\n' :: (marshalList vs1 ++ rest)))
          from by simp [Value.Marshal, CRLF]]
        rw [show (Value.mk "bulk" "" 0 b [] :: vs1).length = vs1.length + 1 from rfl]
        rw [decodeCore_bulk_step]
        rw [readBulk_marshal b (marshalList vs1 ++ rest)]
        simp only [ih f hlt vs1 rest hbao1 (by omega)]
      | array ws hws =>
        have hsz1 : sizeV (Value.mk "array" "" 0 "" ws) = 1 + sizeL ws := by
          simp [sizeV, sizeL]
        rw [hsz1] at hsz
        rw [show (Value.mk "array" "" 0 "" ws).Marshal ++ (marshalList vs1 ++ rest) =
            '*' :: (natToDec ws.length ++ '\r' :: '\n' ::
              (marshalList ws ++ (marshalList vs1 ++ rest)))
          from by simp [Value.Marshal, CRLF]]
        rw [show (Value.mk "array" "" 0 "" ws :: vs1).length = vs1.length + 1 from rfl]
        rw [decodeCore_array_step]
        rw [readInteger_natToDec ws.length (marshalList ws ++ (marshalList vs1 ++ rest))]
        simp only [Int.toNat_natCast]
        rw [ih f hlt ws (marshalList vs1 ++ rest) hws (by omega)]
        simp only [ih f hlt vs1 rest hbao1 (by omega)]

theorem sizeL_le_marshalList (vs : List Value)
    (h : ∀ v ∈ vs, sizeV v ≤ v.Marshal.length) :
    sizeL vs ≤ (marshalList vs).length := by
  induction vs with
  | nil => simp [sizeL, marshalList]
  | cons v vs1 ih =>
    rw [sizeL_cons]
    have h1 := h v (List.mem_cons_self v vs1)
    have h2 := ih (fun w hw => h w (List.mem_cons_of_mem v hw))
    rw [show marshalList (v :: vs1) = v.Marshal ++ marshalList vs1 from by
      simp [marshalList]]
    rw [List.length_append]
    omega

theorem bao_sizeV_le_marshal (v : Value) (h : BAO v) :
    sizeV v ≤ v.Marshal.length := by
  induction h with
  | bulk b =>
    rw [show sizeV (Value.mk "bulk" "" 0 b []) = 1 from by simp [sizeV, sizeL]]
    rw [show (Value.mk "bulk" "" 0 b []).Marshal =
        '$' :: (natToDec b.length ++ '\r' :: '\n' ::
          (b.data ++ '\r' :: '\n' :: [])) from by simp [Value.Marshal, CRLF]]
    simp
  | array ws hws ih =>
    rw [show sizeV (Value.mk "array" "" 0 "" ws) = 1 + sizeL ws from by
      simp [sizeV, sizeL]]
    rw [show (Value.mk "array" "" 0 "" ws).Marshal =
        '*' :: (natToDec ws.length ++ '\r' :: '\n' :: marshalList ws) from by
      simp [Value.Marshal, CRLF]]
    have h2 := sizeL_le_marshalList ws ih
    simp
    omega

/-- C2 (amended): decode is a left inverse of encode on the canonical
trees built only from Array and BulkString nodes — the fragment the
decoder recognizes.  Trees containing SimpleString, Error or Null nodes do
not round-trip (see `decode_encode_simplestring_cex`). -/
theorem decode_marshal_roundtrip (v : Value) (h : BAO v) :
    decode v.Marshal = some (v, []) := by
  unfold decode decodeF
  have hb := bao_sizeV_le_marshal v h
  have hL : sizeL [v] = sizeV v := rfl
  have h1 := decodeCore_marshalList (v.Marshal.length + 1) [v] []
    (by intro w hw; rw [List.mem_singleton] at hw; rw [hw]; exact h)
    (by rw [hL]; omega)
  rw [show marshalList [v] ++ ([] : List Char) = v.Marshal from by
    simp [marshalList]] at h1
  rw [show ([v] : List Value).length = 1 from rfl] at h1
  rw [h1]

/-- C2 counterexample: the canonical SimpleString value "OK" contains no
Integer node, yet decoding its encoding yields the zero `Value` (the
decoder recognizes only the `*` and `$` type bytes), which is not
structurally equal to the original. -/
theorem decode_encode_simplestring_cex :
    decode (VStr "OK").Marshal =
      some (Value.mk "" "" 0 "" [], ['O', 'K', '\r', '\n']) ∧
    Value.mk "" "" 0 "" [] ≠ VStr "OK" := by
  constructor
  · rfl
  · intro h
    injection h with h1 h2 h3 h4 h5
    exact absurd h1 (by decide)

/-- C2 witness: the round-trip theorem applied to the concrete array
value `[bulk "hi"]`. -/
theorem decode_marshal_roundtrip_witness :
    decode (VArr [VBulk "hi"]).Marshal = some (VArr [VBulk "hi"], []) :=
  decode_marshal_roundtrip (VArr [VBulk "hi"])
    (BAO.array [VBulk "hi"] (by
      intro w hw
      rw [List.mem_singleton] at hw
      rw [hw]
      exact BAO.bulk "hi"))
